import Mathlib

/-!
Formal model of the rebalancing core of the command-line-trader repository
(the clt package: clt/broker.py, clt/position.py, clt/run.py).

Network calls and user interaction are modelled by explicit inputs: every
function below takes, as arguments, the values the Python code obtains from
the broker, the market data provider or the terminal, and returns the values
and side requests (orders placed, orders cancelled) the Python code produces.
Machine floats are modelled by exact rationals.
-/

/-- Order statuses from the OrderStatus enum in clt/broker.py. The Python
members OPEN and PARTIALLY_FILLED are spelled statusOpen and partFilled. -/
inductive OrderStatus
  | statusOpen
  | filled
  | rejected
  | expired
  | canceled
  | pending
  | partFilled
  | calculated
  | acceptedForBidding
  | error
  | held
deriving DecidableEq, Repr

/-- Terminal statuses of the poll loop: true when one of the if/elif branches
of the loop body of _wait_for_pending_orders (clt/position.py) removes the
order id from the pending set and yields the order; the branches test FILLED,
then membership in (REJECTED, EXPIRED, ERROR), then CANCELED. -/
def pollRemoves (s : OrderStatus) : Bool :=
  if s = OrderStatus.filled then true
  else if s = OrderStatus.rejected ∨ s = OrderStatus.expired ∨ s = OrderStatus.error then true
  else if s = OrderStatus.canceled then true
  else false

/-- The poll loop _wait_for_pending_orders (clt/position.py): while the pending
set is nonempty, one round queries the status of every pending id, removes the
ids whose reported status is terminal and yields their orders, and keeps every
other id for the next round. The broker is modelled by the list ss giving, round
by round, the status it reports for each id; the run stops when the rounds are
exhausted. Returns (ids yielded, in order; ids still pending). -/
def waitForPendingOrders : List (ℕ → OrderStatus) → List ℕ → List ℕ × List ℕ
  | [], pending => ([], pending)
  | s :: rest, pending =>
    if pending = [] then ([], [])
    else
      let yielded := pending.filter (fun i => pollRemoves (s i))
      let remaining := pending.filter (fun i => ! pollRemoves (s i))
      let next := waitForPendingOrders rest remaining
      (yielded ++ next.1, next.2)

/-- Round one of the two id example: order 1 reports FILLED, order 2 OPEN. -/
def c1StatusRound1 : ℕ → OrderStatus :=
  fun i => if i = 1 then OrderStatus.filled else OrderStatus.statusOpen

/-- Round two of the two id example: order 2 reports REJECTED. -/
def c1StatusRound2 : ℕ → OrderStatus := fun _ => OrderStatus.rejected

/-- The broker schedule of the two id example of the spec. -/
def c1Schedule : List (ℕ → OrderStatus) := [c1StatusRound1, c1StatusRound2]

/-- Python str.lower, written on the character list so that it evaluates by
kernel reduction; ticker names are ASCII. -/
def pyLower (s : String) : String := String.mk (s.data.map Char.toLower)

/-- Position from clt/broker.py (a pydantic model); the acquisition time is
modelled as an integer timestamp. -/
structure Position where
  name : String
  size : ℤ
  cost_basis : ℚ
  time_opened : ℤ
deriving DecidableEq, Repr

/-- The str branch of Position.__eq__: case insensitive name comparison. -/
def posEqStr (p : Position) (s : String) : Bool := pyLower p.name == pyLower s

/-- The Position branch of Position.__eq__: case insensitive name comparison. -/
def posEqPos (p q : Position) : Bool := pyLower p.name == pyLower q.name

/-- Position.__hash__ is hash(self.name): a function of the name alone. -/
def posHash (p : Position) : UInt64 := p.name.hash

/-- The Python test name in positions on a list of positions: list containment
compares the string against each element, landing in Position.__eq__. -/
def memPos (name : String) (ps : List Position) : Bool :=
  ps.any (fun p => posEqStr p name)

/-- Python 3 round(x) to an integer: nearest, halves to the even value. -/
def roundHalfEven (q : ℚ) : ℤ :=
  if q - ⌊q⌋ < 1/2 then ⌊q⌋
  else if 1/2 < q - ⌊q⌋ then ⌊q⌋ + 1
  else if 2 ∣ ⌊q⌋ then ⌊q⌋ else ⌊q⌋ + 1

/-- Python round(x, 2) on the exact rational value. -/
def pyRound2 (q : ℚ) : ℚ := (roundHalfEven (q * 100) : ℚ) / 100

/-- Python int(x) on a float: truncation toward zero. -/
def pyInt (q : ℚ) : ℤ := if 0 ≤ q then ⌊q⌋ else ⌈q⌉

/-- Python truthiness of the stop loss click option (None or a nonzero int). -/
def optTruthy : Option ℕ → Bool
  | none => false
  | some n => n != 0

/-- Inputs the enter command reads (clt/position.py): the account balance
fields it uses, the quote for the symbol, the held positions, whether the user
confirms the preview prompt, and the first terminal order that the poll loop
yields for the market buy (status, executed quantity, average fill price). -/
structure EnterEnv where
  total_equity : ℚ
  open_pl : ℚ
  quote_price : ℚ
  positions : List Position
  confirm : Bool
  fill_status : OrderStatus
  executed_quantity : ℤ
  avg_fill_price : ℚ
deriving DecidableEq, Repr

/-- Orders the enter command places: the market buy (symbol, quantity), the
displayed actual allocation percentage, and the stop loss order
(symbol, quantity, stop price) when one is placed. -/
structure EnterResult where
  buy : Option (String × ℤ)
  actual_allocation : Option ℚ
  stop : Option (String × ℤ × ℚ)
deriving DecidableEq, Repr

/-- Result of every early return of enter: no order is placed. -/
def noOrders : EnterResult := ⟨none, none, none⟩

/-- The enter command of clt/position.py as a function of its inputs: the
already held check, the allocation size guard, the stop loss sanity check, the
preview confirmation, the market buy, the wait for a terminal status, and the
optional stop loss order priced from the quote. -/
def enter (name : String) (allocation : ℕ) (stop_loss : Option ℕ) (preview : Bool)
    (env : EnterEnv) : EnterResult :=
  if memPos name env.positions then noOrders
  else
    let account_base := env.total_equity - env.open_pl
    let allocation_size := ((allocation : ℚ) / 100) * account_base
    if allocation_size ≤ env.quote_price then noOrders
    else
      let allocation_quantity := pyInt (allocation_size / env.quote_price)
      let actual_alloc := (((allocation_quantity : ℚ) * env.quote_price) / account_base) * 100
      let sl : ℕ := stop_loss.getD 0
      let stop_price := env.quote_price * ((100 - (sl : ℚ)) / 100)
      if optTruthy stop_loss ∧ env.quote_price ≤ stop_price then noOrders
      else if preview ∧ env.confirm = false then noOrders
      else
        let buy := some (name, allocation_quantity)
        if env.fill_status ≠ OrderStatus.filled then
          ⟨buy, some actual_alloc, none⟩
        else if optTruthy stop_loss then
          ⟨buy, some actual_alloc, some (name, env.executed_quantity, pyRound2 stop_price)⟩
        else
          ⟨buy, some actual_alloc, none⟩

/-- Concrete inputs for the C2 counterexample: quote price 38, the market buy
fills 105 shares at average fill price 39 (fill differs from quote). -/
def c2Env : EnterEnv :=
  { total_equity := 100000, open_pl := 0, quote_price := 38, positions := []
    confirm := true, fill_status := OrderStatus.filled
    executed_quantity := 105, avg_fill_price := 39 }

/-- Concrete inputs for the C9 scenario: account base 100000, quote price 38,
no stop loss, the buy fills. -/
def c9Env : EnterEnv :=
  { total_equity := 100000, open_pl := 0, quote_price := 38, positions := []
    confirm := true, fill_status := OrderStatus.filled
    executed_quantity := 105, avg_fill_price := 38 }

/-- Concrete inputs for the C10 witness: the AAPL position is already held. -/
def c10Env : EnterEnv :=
  { total_equity := 100000, open_pl := 0, quote_price := 38
    positions := [{ name := "AAPL", size := 10, cost_basis := 100, time_opened := 0 }]
    confirm := true, fill_status := OrderStatus.filled
    executed_quantity := 105, avg_fill_price := 38 }

/-- Order from clt/broker.py (a pydantic model). -/
structure Order where
  id : String
  name : String
  side : String
  type : String
  status : OrderStatus
  executed_quantity : ℤ
  avg_fill_price : ℚ
deriving DecidableEq, Repr

/-- Inputs the exit command reads: the order and position lists of the broker. -/
structure ExitEnv where
  orders : List Order
  positions : List Position
deriving Repr

/-- Broker calls the exit command makes, listed in the order it makes them. -/
inductive BrokerAction
  | cancelOrder (id : String)
  | marketSell (name : String) (qty : ℤ)
deriving DecidableEq, Repr

/-- The open_orders filter of exit_ (clt/position.py): status OPEN and the
same symbol up to case. -/
def openOrderFor (name : String) (o : Order) : Bool :=
  (o.status == OrderStatus.statusOpen) && (pyLower o.name == pyLower name)

/-- The exit command of clt/position.py as the list of broker calls it makes:
nothing when the symbol is not held; otherwise it cancels every open order of
that symbol and then places one market sell for the full held size, taken from
the first position equal to the name. -/
def exit_ (name : String) (env : ExitEnv) : List BrokerAction :=
  if ! memPos name env.positions then []
  else
    let cancels := (env.orders.filter (openOrderFor name)).map
      (fun o => BrokerAction.cancelOrder o.id)
    match (env.positions.filter (fun p => posEqStr p name)).head? with
    | some p => cancels ++ [BrokerAction.marketSell name p.size]
    | none => cancels

/-- Concrete inputs for the C8 witness: nothing is held. -/
def c8Env : ExitEnv := { orders := [], positions := [] }

/-- The per symbol price data the scoring loop receives: the empty dict that
get_price returns on a rate limit (slicing it raises TypeError, and the loop
skips the symbol), or a list of bars, modelled by their close prices. -/
inductive PriceData
  | emptyDict
  | bars (closes : List ℚ)
deriving DecidableEq, Repr

/-- Outcome of one HTTP request inside get_price (clt/run.py): a json body
(a bar list), a 429 rate limit status, or a timeout exception. -/
inductive FetchOutcome
  | ok (rows : List ℚ)
  | rateLimited
  | connectTimeout
  | readTimeout

/-- The retry loop of get_price (clt/run.py). The first argument of the
recursion is the retries counter (initially 3), the second indexes the stream
oc of request outcomes. A 429 returns the empty dict and a success returns the
body, both from inside the loop without touching retries; each timeout
decrements retries by one; at zero the loop exits and the function returns the
empty list. The returned pair carries the result and the value of retries at
the moment of return. -/
def getPriceGo (oc : ℕ → FetchOutcome) : ℕ → ℕ → PriceData × ℕ
  | 0, _ => (PriceData.bars [], 0)
  | r + 1, i =>
    match oc i with
    | FetchOutcome.rateLimited => (PriceData.emptyDict, r + 1)
    | FetchOutcome.ok rows => (PriceData.bars rows, r + 1)
    | FetchOutcome.connectTimeout => getPriceGo oc r (i + 1)
    | FetchOutcome.readTimeout => getPriceGo oc r (i + 1)

/-- get_price with its initial retry budget of 3. -/
def get_price (oc : ℕ → FetchOutcome) : PriceData × ℕ := getPriceGo oc 3 0

/-- One chunk of the fetch batch: asyncio.gather over the get_price tasks of
the chunk, pairing every requested symbol with its result. -/
def gatherChunk (oc : String → ℕ → FetchOutcome) (chunk : List String) :
    List (String × PriceData) :=
  chunk.map (fun s => (s, (get_price (oc s)).1))

/-- The buy side of the portfolio diff in rebalance (clt/run.py): Python set
difference of the top ranked names and the held position names. -/
def names_to_buy (top_ranked : List String) (position_names : List String) : Finset String :=
  top_ranked.toFinset \ position_names.toFinset

/-- The sell side of the portfolio diff in rebalance (clt/run.py): held
position names not in the top ranked names. -/
def names_to_sell (top_ranked : List String) (position_names : List String) : Finset String :=
  position_names.toFinset \ top_ranked.toFinset

/-- Scheduler state of the run loop (clt/run.py): the cached symbol list and
the dates, as integer day numbers, of the last symbol refresh and the last
rebalance. -/
structure SchedState where
  symbols : List String
  last_symbol_refresh : ℤ
  last_rebalance : ℤ
deriving DecidableEq, Repr

/-- State the run loop starts from: symbols fetched once before the loop, the
refresh date set to today and the rebalance date to yesterday. -/
def schedInit (fetched : List String) (today0 : ℤ) : SchedState :=
  { symbols := fetched, last_symbol_refresh := today0, last_rebalance := today0 - 1 }

/-- One five second tick of the run loop: the calendar date and the calendar
and clock predicates the loop computes from now (is_session; first_minute <=
now < last_minute; the ten minute pre open window; hour 12 in Chicago), plus
the symbol list fetch_symbols would return if called on this tick. -/
structure SchedTick where
  today : ℤ
  is_session : Bool
  market_open : Bool
  pre_open : Bool
  noon_hour : Bool
  fetched : List String
deriving DecidableEq, Repr

/-- Observable actions of one tick of the run loop. -/
inductive SchedEvent
  | rebalanced
  | refreshed
deriving DecidableEq, Repr

/-- One iteration of the while loop of run (clt/run.py): skip when today is
not a session; inside session hours rebalance when the Chicago hour is 12 and
last_rebalance < today, setting last_rebalance to today; in the pre open
window refresh the symbols when the cached list is empty or
last_symbol_refresh < today, storing the fetched list and the date. -/
def schedStep (st : SchedState) (t : SchedTick) : SchedState × List SchedEvent :=
  if ! t.is_session then (st, [])
  else if t.market_open then
    if t.noon_hour && decide (st.last_rebalance < t.today) then
      ({ st with last_rebalance := t.today }, [SchedEvent.rebalanced])
    else (st, [])
  else if t.pre_open then
    if st.symbols.isEmpty || decide (st.last_symbol_refresh < t.today) then
      ({ st with symbols := t.fetched, last_symbol_refresh := t.today },
        [SchedEvent.refreshed])
    else (st, [])
  else (st, [])

/-- The run loop over a finite list of ticks, collecting events in order. -/
def schedRun (st : SchedState) : List SchedTick → SchedState × List SchedEvent
  | [] => (st, [])
  | t :: ts =>
    let first := schedStep st t
    let rest := schedRun first.1 ts
    (rest.1, first.2 ++ rest.2)

/-- A pre open tick on session day 5 whose symbol fetch returns the empty
list. -/
def c3Tick : SchedTick :=
  { today := 5, is_session := true, market_open := false, pre_open := true
    noon_hour := false, fetched := [] }

/-- Look back period of the momentum computation (clt/run.py). -/
def look_back_period : ℕ := 130

/-- Target portfolio size (clt/run.py). -/
def portfolio_size : ℕ := 25

/-- Quality threshold on the correlation coefficient (clt/run.py). -/
def quality_threshold : ℚ := 93 / 100

/-- The Python negative slice data[-n:]. -/
def lastN (n : ℕ) (l : List ℚ) : List ℚ := l.drop (l.length - n)

/-- Arithmetic mean of a list of rationals. -/
def mean (l : List ℚ) : ℚ := l.sum / (l.length : ℚ)

/-- Deviations from the mean. -/
def centered (l : List ℚ) : List ℚ := l.map (fun x => x - mean l)

/-- Sum of squared deviations: the sxx of statistics.correlation and of
statistics.linear_regression. -/
def sqSum (l : List ℚ) : ℚ := ((centered l).map (fun x => x * x)).sum

/-- Sum of products of deviations: the sxy of statistics.correlation. -/
def crossSum (xs ys : List ℚ) : ℚ :=
  (((centered xs).zip (centered ys)).map (fun p => p.1 * p.2)).sum

/-- The index list rng = [1..n] built by the scoring loop. -/
def idxList (n : ℕ) : List ℚ := (List.range n).map (fun i : ℕ => (i : ℚ) + 1)

/-- Exact rational form of the retention test of the scoring loop. The code
keeps a symbol when r_value >= quality_threshold, where
r_value = sxy / sqrt(sxx * syy) is the float statistics.correlation returns;
for sxx * syy > 0 and a positive threshold this holds iff 0 <= sxy and
threshold^2 * (sxx * syy) <= sxy^2, which is decidable over the rationals.
The equivalence with the square root form is proved as part of C7. -/
def qualityOK (xs ys : List ℚ) : Bool :=
  decide (0 ≤ crossSum xs ys)
    && decide (quality_threshold ^ 2 * (sqSum xs * sqSum ys) ≤ (crossSum xs ys) ^ 2)

/-- One iteration of the scoring loop of rebalance (clt/run.py): the pair
(symbol, slope) added to momentum_quality, or none when the loop skips the
symbol. Skips: the empty dict raises TypeError on slicing; fewer than two
points, or a constant input (zero sxx or syy), makes statistics.correlation
raise StatisticsError, caught by the except; an r_value below the threshold
hits continue. A retained symbol gets the slope sxy / sxx of
statistics.linear_regression as its score. -/
def scoreSymbol : String × PriceData → Option (String × ℚ)
  | (_, PriceData.emptyDict) => none
  | (sym, PriceData.bars closes) =>
    if (lastN look_back_period closes).length < 2 then none
    else if sqSum (idxList (lastN look_back_period closes).length)
        * sqSum (lastN look_back_period closes) = 0 then none
    else if ! qualityOK (idxList (lastN look_back_period closes).length)
        (lastN look_back_period closes) then none
    else some (sym, crossSum (idxList (lastN look_back_period closes).length)
          (lastN look_back_period closes)
        / sqSum (idxList (lastN look_back_period closes).length))

/-- The candidate set momentum_quality, in discovery order. -/
def momentum_quality (prices : List (String × PriceData)) : List (String × ℚ) :=
  prices.filterMap scoreSymbol

/-- The comparison of sorted(momentum_quality, reverse=True) keyed on the
score: descending, stable on ties. -/
def scoreDesc (a b : String × ℚ) : Bool := decide (b.2 ≤ a.2)

/-- top_ranked_momentum of rebalance (clt/run.py): the candidates sorted by
score descending (stable), truncated to portfolio_size, keeping the names. -/
def top_ranked_momentum (prices : List (String × PriceData)) : List String :=
  (((momentum_quality prices).mergeSort scoreDesc).take portfolio_size).map Prod.fst

theorem waitForPendingOrders_snd (ss : List (ℕ → OrderStatus)) :
    ∀ pending : List ℕ,
      (waitForPendingOrders ss pending).2
        = pending.filter (fun i => ss.all (fun s => ! pollRemoves (s i))) := by
  induction ss with
  | nil => intro pending; simp [waitForPendingOrders]
  | cons s rest ih =>
    intro pending
    by_cases hp : pending = []
    · subst hp; simp [waitForPendingOrders]
    · simp only [waitForPendingOrders, if_neg hp]
      rw [ih, List.filter_filter]
      refine List.filter_congr ?_
      intro i _
      simp [List.all_cons, Bool.and_comm]

theorem waitForPendingOrders_count (ss : List (ℕ → OrderStatus)) :
    ∀ pending : List ℕ, pending.Nodup → ∀ i : ℕ,
      (waitForPendingOrders ss pending).1.count i
        = if i ∈ pending ∧ ss.any (fun s => pollRemoves (s i)) then 1 else 0 := by
  induction ss with
  | nil => intro pending _ i; simp [waitForPendingOrders]
  | cons s rest ih =>
    intro pending h i
    by_cases hp : pending = []
    · subst hp; simp [waitForPendingOrders]
    · simp only [waitForPendingOrders, if_neg hp]
      rw [List.count_append]
      rw [ih (pending.filter (fun j => ! pollRemoves (s j))) (h.filter _) i]
      by_cases hmem : i ∈ pending
      · by_cases hrem : pollRemoves (s i)
        · have h1 : (pending.filter (fun j => pollRemoves (s j))).count i = 1 :=
            List.count_eq_one_of_mem (h.filter _) (List.mem_filter.mpr ⟨hmem, hrem⟩)
          have h2 : i ∉ pending.filter (fun j => ! pollRemoves (s j)) := by
            intro hc
            rcases List.mem_filter.mp hc with ⟨-, hb⟩
            simp [hrem] at hb
          rw [h1]
          simp [hmem, hrem, h2]
        · have h1 : i ∉ pending.filter (fun j => pollRemoves (s j)) := by
            intro hc
            rcases List.mem_filter.mp hc with ⟨-, hb⟩
            simp [hrem] at hb
          have h2 : i ∈ pending.filter (fun j => ! pollRemoves (s j)) :=
            List.mem_filter.mpr ⟨hmem, by simp [hrem]⟩
          rw [List.count_eq_zero.mpr h1]
          simp only [Bool.not_eq_true] at hrem
          simp [hmem, h2, List.any_cons, hrem]
      · have h1 : i ∉ pending.filter (fun j => pollRemoves (s j)) := by
          intro hc; exact hmem (List.mem_filter.mp hc).1
        have h2 : i ∉ pending.filter (fun j => ! pollRemoves (s j)) := by
          intro hc; exact hmem (List.mem_filter.mp hc).1
        rw [List.count_eq_zero.mpr h1]
        simp [hmem, h2]

/-- C1: the order poll loop removes an id from the pending set and yields its
order exactly once, in the round where its reported status first becomes
terminal (FILLED, REJECTED, EXPIRED, ERROR or CANCELED); an id with any other
status is left in the pending set; once every id has reported a terminal status
the pending set is empty; and on the two id example (id 1 FILLED in round one,
id 2 REJECTED in round two) the loop yields 1 then 2 and ends empty. -/
theorem wait_for_pending_orders_correct
    (ss : List (ℕ → OrderStatus)) (pending : List ℕ) (h : pending.Nodup) :
    ((waitForPendingOrders ss pending).2
        = pending.filter (fun i => ss.all (fun s => ! pollRemoves (s i))))
    ∧ (∀ i, (waitForPendingOrders ss pending).1.count i
        = if i ∈ pending ∧ ss.any (fun s => pollRemoves (s i)) then 1 else 0)
    ∧ (∀ r i, i ∈ (waitForPendingOrders (ss.take r) pending).1
        ↔ (i ∈ pending ∧ (ss.take r).any (fun s => pollRemoves (s i))))
    ∧ ((∀ i ∈ pending, ss.any (fun s => pollRemoves (s i)) = true)
        → (waitForPendingOrders ss pending).2 = [])
    ∧ (∀ s, pollRemoves s = true
        ↔ (s = OrderStatus.filled ∨ s = OrderStatus.rejected ∨ s = OrderStatus.expired
           ∨ s = OrderStatus.error ∨ s = OrderStatus.canceled))
    ∧ waitForPendingOrders c1Schedule [1, 2] = ([1, 2], []) := by
  refine ⟨waitForPendingOrders_snd ss pending, waitForPendingOrders_count ss pending h, ?_, ?_, ?_, ?_⟩
  · intro r i
    have hc := waitForPendingOrders_count (ss.take r) pending h i
    constructor
    · intro hmem
      by_contra hcond
      rw [if_neg hcond] at hc
      exact (List.count_eq_zero.mp hc) hmem
    · intro hcond
      rw [if_pos hcond] at hc
      by_contra hmem
      rw [List.count_eq_zero.mpr hmem] at hc
      exact absurd hc (by omega)
  · intro hall
    rw [waitForPendingOrders_snd ss pending]
    rw [List.filter_eq_nil_iff]
    intro i hi
    have hi2 := hall i hi
    rcases List.any_eq_true.mp hi2 with ⟨s, hs, hrs⟩
    intro hall2
    rw [List.all_eq_true] at hall2
    have := hall2 s hs
    simp [hrs] at this
  · intro s
    cases s <;> simp [pollRemoves]
  · decide

/-- Closed instance of C1: the concrete two id run, obtained from the theorem
with its Nodup hypothesis discharged on the explicit input. -/
theorem wait_for_pending_orders_correct_witness :
    waitForPendingOrders c1Schedule [1, 2] = ([1, 2], []) :=
  (wait_for_pending_orders_correct c1Schedule [1, 2] (by decide)).2.2.2.2.2

/-- C2 counterexample: with quote price 38, a 10 percent stop loss and a fill
at average price 39, the placed stop price is 34.20 = 38 x 0.90, while the
formula of the claim, fill price x (1 - 10/100) = 35.10, differs: the code
prices the stop from the quote, not from the average fill price. -/
theorem enter_stop_price_from_quote_counterexample :
    (enter "abc" 4 (some 10) false c2Env).stop = some ("abc", 105, 171/5)
    ∧ (171/5 : ℚ) ≠ c2Env.avg_fill_price * (1 - (10 : ℚ)/100) := by
  constructor
  · norm_num [enter, c2Env, memPos, optTruthy, noOrders, pyRound2, roundHalfEven]
  · norm_num [c2Env]

/-- C2 amended: whenever a stop loss percentage was requested and the market
buy reaches FILLED, a stop order is placed whose stop price is the quote price
times (1 - stop_pct/100) rounded to two decimal places, and whose quantity is
the filled order executed quantity. -/
theorem enter_stop_loss_spec (name : String) (allocation : ℕ) (sl : ℕ) (preview : Bool)
    (env : EnterEnv) (hsl : sl ≠ 0) (hfill : env.fill_status = OrderStatus.filled)
    (hbuy : (enter name allocation (some sl) preview env).buy ≠ none) :
    (enter name allocation (some sl) preview env).stop
      = some (name, env.executed_quantity,
          pyRound2 (env.quote_price * ((100 - (sl : ℚ)) / 100))) := by
  simp only [enter] at hbuy ⊢
  split_ifs at hbuy ⊢ with h1 h2 h3 h4 h5 h6
  · simp [noOrders] at hbuy
  · simp [noOrders] at hbuy
  · simp [noOrders] at hbuy
  · simp [noOrders] at hbuy
  · exact absurd hfill h5
  · rfl
  · exact absurd (by simpa [optTruthy] using hsl) h6

/-- Closed instance of C2 amended at the counterexample inputs. -/
theorem enter_stop_loss_spec_witness :
    (enter "abc" 4 (some 10) false c2Env).stop
      = some ("abc", c2Env.executed_quantity,
          pyRound2 (c2Env.quote_price * ((100 - (10 : ℚ)) / 100))) :=
  enter_stop_loss_spec "abc" 4 10 false c2Env (by decide) (by rfl)
    (by norm_num [enter, c2Env, memPos, optTruthy, noOrders]
        exact Option.some_ne_none _)

/-- C9: whenever the entry operation places its market buy under a positive
quote price, the quantity is the floor of allocation_size / quote_price with
allocation_size = (allocation/100) x (total_equity - open_pl); on the scenario
allocation 4 percent, account base 100000, quote price 38 it buys
floor(4000/38) = 105 shares and the actual allocation is 3.99 percent. -/
theorem enter_quantity_spec (name : String) (allocation : ℕ) (stop_loss : Option ℕ)
    (preview : Bool) (env : EnterEnv) (hq : 0 < env.quote_price)
    (hbuy : (enter name allocation stop_loss preview env).buy ≠ none) :
    ((enter name allocation stop_loss preview env).buy
        = some (name, ⌊(((allocation : ℚ) / 100) * (env.total_equity - env.open_pl))
            / env.quote_price⌋))
    ∧ (enter "xyz" 4 none false c9Env).buy = some ("xyz", 105)
    ∧ (enter "xyz" 4 none false c9Env).actual_allocation = some (399/100) := by
  refine ⟨?_, ?_, ?_⟩
  · simp only [enter] at hbuy ⊢
    split_ifs at hbuy ⊢ with h1 h2 h3 h4 h5 h6
    all_goals try simp [noOrders] at hbuy
    all_goals
      have hpos : 0 ≤ (((allocation : ℚ) / 100) * (env.total_equity - env.open_pl))
          / env.quote_price := by
        have h2q : env.quote_price
            < ((allocation : ℚ) / 100) * (env.total_equity - env.open_pl) := by
          exact lt_of_not_le h2
        have : (0:ℚ) < ((allocation : ℚ) / 100) * (env.total_equity - env.open_pl) :=
          lt_trans hq h2q
        positivity
    all_goals simp [pyInt, hpos]
  · have h105 : pyInt ((2000 : ℚ) / 19) = 105 := by
      rw [pyInt, if_pos (by norm_num), Int.floor_eq_iff]; norm_num
    norm_num [enter, c9Env, memPos, optTruthy, noOrders]
    exact h105
  · have h105 : pyInt ((2000 : ℚ) / 19) = 105 := by
      rw [pyInt, if_pos (by norm_num), Int.floor_eq_iff]; norm_num
    norm_num [enter, c9Env, memPos, optTruthy, noOrders]
    rw [h105]
    norm_num

/-- Closed instance of C9 at the scenario inputs of the spec. -/
theorem enter_quantity_spec_witness :
    (enter "xyz" 4 none false c9Env).buy = some ("xyz", 105) :=
  (enter_quantity_spec "xyz" 4 none false c9Env (by norm_num [c9Env])
    (by norm_num [enter, c9Env, memPos, optTruthy, noOrders]
        exact Option.some_ne_none _)).2.1

/-- C10: Position identity is case insensitive on the name: comparison with a
string, and with another Position, holds exactly on equal lowercased names, the
hash is a function of the name alone, list membership is case insensitive, and
the already held check of enter rejects a symbol held under any casing. -/
theorem position_eq_case_insensitive :
    (∀ p s, posEqStr p s = true ↔ pyLower p.name = pyLower s)
    ∧ (∀ p q, posEqPos p q = true ↔ pyLower p.name = pyLower q.name)
    ∧ (∀ p q, p.name = q.name → posHash p = posHash q)
    ∧ (∀ name ps, memPos name ps = true ↔ ∃ p ∈ ps, pyLower p.name = pyLower name)
    ∧ (∀ name allocation stop_loss preview env,
        (∃ p ∈ env.positions, pyLower p.name = pyLower name) →
        enter name allocation stop_loss preview env = noOrders) := by
  have hstr : ∀ p s, posEqStr p s = true ↔ pyLower p.name = pyLower s := by
    intro p s; simp [posEqStr]
  have hmem : ∀ name ps, memPos name ps = true ↔ ∃ p ∈ ps, pyLower p.name = pyLower name := by
    intro name ps
    rw [memPos, List.any_eq_true]
    constructor
    · rintro ⟨p, hp, he⟩; exact ⟨p, hp, (hstr p name).mp he⟩
    · rintro ⟨p, hp, he⟩; exact ⟨p, hp, (hstr p name).mpr he⟩
  refine ⟨hstr, ?_, ?_, hmem, ?_⟩
  · intro p q; simp [posEqPos]
  · intro p q h; simp [posHash, h]
  · intro name allocation stop_loss preview env hheld
    rw [enter, if_pos ((hmem name env.positions).mpr hheld)]

theorem getPriceGo_timeouts_then_rate_limit (oc : ℕ → FetchOutcome) :
    ∀ n r i, n < r
      → (∀ j, j < n → oc (i + j) = FetchOutcome.connectTimeout
            ∨ oc (i + j) = FetchOutcome.readTimeout)
      → oc (i + n) = FetchOutcome.rateLimited
      → getPriceGo oc r i = (PriceData.emptyDict, r - n) := by
  intro n
  induction n with
  | zero =>
    intro r i hr ht hrl
    obtain ⟨r', rfl⟩ : ∃ r', r = r' + 1 := ⟨r - 1, by omega⟩
    simp only [Nat.add_zero] at hrl
    simp [getPriceGo, hrl]
  | succ n ih =>
    intro r i hr ht hrl
    obtain ⟨r', rfl⟩ : ∃ r', r = r' + 1 := ⟨r - 1, by omega⟩
    have h0 := ht 0 (by omega)
    rw [Nat.add_zero] at h0
    have hstep : getPriceGo oc (r' + 1) i = getPriceGo oc r' (i + 1) := by
      rcases h0 with h0 | h0 <;> simp [getPriceGo, h0]
    rw [hstep]
    have := ih r' (i + 1) (by omega)
      (fun j hj => by
        have := ht (j + 1) (by omega)
        rwa [show i + (j + 1) = i + 1 + j by omega] at this)
      (by rwa [show i + 1 + n = i + (n + 1) by omega])
    rw [this]
    congr 1
    omega

/-- C5: a rate limit response at any attempt makes get_price return the empty
result immediately, without consuming a retry (the budget left equals three
minus the timeouts that preceded it, and in the direct statement a 429 returns
with the loop counter intact), and without failing the enclosing gather: every
symbol of a chunk is paired with a result. -/
theorem get_price_rate_limit_spec (oc : ℕ → FetchOutcome) (n : ℕ) (hn : n < 3)
    (ht : ∀ j, j < n → oc j = FetchOutcome.connectTimeout ∨ oc j = FetchOutcome.readTimeout)
    (hr : oc n = FetchOutcome.rateLimited) :
    get_price oc = (PriceData.emptyDict, 3 - n)
    ∧ (∀ (oc2 : ℕ → FetchOutcome) (r i : ℕ), oc2 i = FetchOutcome.rateLimited →
        getPriceGo oc2 (r + 1) i = (PriceData.emptyDict, r + 1))
    ∧ (∀ (ocs : String → ℕ → FetchOutcome) (chunk : List String),
        (gatherChunk ocs chunk).map Prod.fst = chunk) := by
  refine ⟨?_, ?_, ?_⟩
  · have := getPriceGo_timeouts_then_rate_limit oc n 3 0 hn
      (fun j hj => by simpa using ht j hj) (by simpa using hr)
    simpa [get_price] using this
  · intro oc2 r i h
    simp [getPriceGo, h]
  · intro ocs chunk
    simp only [gatherChunk, List.map_map]
    rw [show (Prod.fst ∘ fun s => (s, (get_price (ocs s)).1)) = id from rfl, List.map_id]

/-- Closed instance of C5: one timeout, then a 429; the result is the empty
dict with two retries left. -/
theorem get_price_rate_limit_spec_witness :
    get_price (fun j => if j = 0 then FetchOutcome.connectTimeout
        else FetchOutcome.rateLimited)
      = (PriceData.emptyDict, 2) :=
  (get_price_rate_limit_spec _ 1 (by omega)
    (fun j hj => by interval_cases j; simp)
    (by simp)).1

/-- C8: the exit operation makes no broker call when the symbol is not held;
when it is held, it cancels exactly the open orders of that symbol, and only
after all of them places a single market sell for the full held size, taken
from the first position equal to the name; cancellations never touch another
symbol. -/
theorem exit_cancels_then_sells (name : String) (env : ExitEnv) :
    (memPos name env.positions = false → exit_ name env = [])
    ∧ (memPos name env.positions = true →
        ∃ p, (env.positions.filter (fun q => posEqStr q name)).head? = some p
          ∧ exit_ name env
              = (env.orders.filter (openOrderFor name)).map
                  (fun o => BrokerAction.cancelOrder o.id)
                ++ [BrokerAction.marketSell name p.size])
    ∧ (∀ i, BrokerAction.cancelOrder i ∈ exit_ name env
        ↔ memPos name env.positions = true
          ∧ ∃ o ∈ env.orders, o.id = i ∧ o.status = OrderStatus.statusOpen
              ∧ pyLower o.name = pyLower name) := by
  by_cases hm : memPos name env.positions
  · have hex : ∃ p, (env.positions.filter (fun q => posEqStr q name)).head? = some p := by
      rcases List.any_eq_true.mp hm with ⟨p, hp, he⟩
      have hmem : p ∈ env.positions.filter (fun q => posEqStr q name) :=
        List.mem_filter.mpr ⟨hp, he⟩
      cases hfil : env.positions.filter (fun q => posEqStr q name) with
      | nil => rw [hfil] at hmem; cases hmem
      | cons a t => exact ⟨a, by simp⟩
    rcases hex with ⟨p, hp⟩
    have hval : exit_ name env
        = (env.orders.filter (openOrderFor name)).map
            (fun o => BrokerAction.cancelOrder o.id)
          ++ [BrokerAction.marketSell name p.size] := by
      rw [exit_, if_neg (by simp [hm])]
      rw [hp]
    refine ⟨fun hf => absurd hm (by simp [hf]), fun _ => ⟨p, hp, hval⟩, ?_⟩
    intro i
    rw [hval]
    simp only [List.mem_append, List.mem_map, List.mem_filter, List.mem_singleton]
    constructor
    · rintro (⟨o, ⟨ho, hof⟩, hoc⟩ | hsell)
      · have hof2 : o.status = OrderStatus.statusOpen ∧ pyLower o.name = pyLower name := by
          simpa [openOrderFor] using hof
        exact ⟨hm, o, ho, by injection hoc, hof2.1, hof2.2⟩
      · cases hsell
    · rintro ⟨-, o, ho, hid, hst, hnm⟩
      exact Or.inl ⟨o, ⟨ho, by simp [openOrderFor, hst, hnm]⟩, by rw [hid]⟩
  · have hval : exit_ name env = [] := by rw [exit_, if_pos (by simp [hm])]
    refine ⟨fun _ => hval, fun h => absurd h (by simp [hm]), ?_⟩
    intro i
    rw [hval]
    simp [hm]

/-- Closed instance of C8: with no held positions the exit command makes no
broker call. -/
theorem exit_cancels_then_sells_witness : exit_ "msft" c8Env = [] :=
  (exit_cancels_then_sells "msft" c8Env).1 (by decide)

/-- C4: the portfolio differ is a pure set difference both ways, its outputs
are always disjoint, and on held = (A, B), target = (B, C) it buys C and
sells A. -/
theorem portfolio_differencer_spec (top_ranked position_names : List String) :
    (∀ s, s ∈ names_to_buy top_ranked position_names ↔ s ∈ top_ranked ∧ s ∉ position_names)
    ∧ (∀ s, s ∈ names_to_sell top_ranked position_names ↔ s ∈ position_names ∧ s ∉ top_ranked)
    ∧ (∀ s, ¬ (s ∈ names_to_buy top_ranked position_names
          ∧ s ∈ names_to_sell top_ranked position_names))
    ∧ names_to_buy ["B", "C"] ["A", "B"] = {"C"}
    ∧ names_to_sell ["B", "C"] ["A", "B"] = {"A"} := by
  refine ⟨?_, ?_, ?_, by decide, by decide⟩
  · intro s; simp [names_to_buy]
  · intro s; simp [names_to_sell]
  · intro s hs
    rcases hs with ⟨h1, h2⟩
    rw [names_to_buy, Finset.mem_sdiff] at h1
    rw [names_to_sell, Finset.mem_sdiff] at h2
    exact h2.2 h1.1

theorem schedStep_last_rebalance_mono (s : SchedState) (t : SchedTick) :
    s.last_rebalance ≤ (schedStep s t).1.last_rebalance := by
  rw [schedStep]
  split_ifs with h1 h2 h3 h4 h5
  · exact le_refl _
  · simp only [Bool.and_eq_true, decide_eq_true_eq] at h3
    exact le_of_lt h3.2
  · exact le_refl _
  · exact le_refl _
  · exact le_refl _
  · exact le_refl _

theorem schedRun_last_rebalance_mono (ts : List SchedTick) :
    ∀ s : SchedState, s.last_rebalance ≤ (schedRun s ts).1.last_rebalance := by
  induction ts with
  | nil => intro s; simp [schedRun]
  | cons t ts ih =>
    intro s
    simp only [schedRun]
    exact le_trans (schedStep_last_rebalance_mono s t) (ih _)

theorem schedRun_no_rebalance (d : ℤ) :
    ∀ (ticks : List SchedTick) (st : SchedState),
      (∀ t ∈ ticks, t.today = d) → d ≤ st.last_rebalance →
      (schedRun st ticks).2.count SchedEvent.rebalanced = 0 := by
  intro ticks
  induction ticks with
  | nil => intro st _ _; simp [schedRun]
  | cons t ts ih =>
    intro st hd hle
    have htd : t.today = d := hd t (by simp)
    have hrest : ∀ u ∈ ts, u.today = d := fun u hu => hd u (by simp [hu])
    simp only [schedRun, List.count_append]
    rw [schedStep]
    split_ifs with h1 h2 h3 h4 h5
    · simpa using ih st hrest hle
    · exfalso
      simp only [Bool.and_eq_true, decide_eq_true_eq] at h3
      rw [htd] at h3
      omega
    · simpa using ih st hrest hle
    · simp only [List.count_cons, List.count_nil]
      rw [ih { st with symbols := t.fetched, last_symbol_refresh := t.today } hrest hle]
      decide
    · simpa using ih st hrest hle
    · simpa using ih st hrest hle

theorem schedRun_rebalance_le_one (d : ℤ) :
    ∀ (ticks : List SchedTick) (st : SchedState),
      (∀ t ∈ ticks, t.today = d) →
      (schedRun st ticks).2.count SchedEvent.rebalanced ≤ 1 := by
  intro ticks
  induction ticks with
  | nil => intro st _; simp [schedRun]
  | cons t ts ih =>
    intro st hd
    have htd : t.today = d := hd t (by simp)
    have hrest : ∀ u ∈ ts, u.today = d := fun u hu => hd u (by simp [hu])
    simp only [schedRun, List.count_append]
    rw [schedStep]
    split_ifs with h1 h2 h3 h4 h5
    · simpa using ih st hrest
    · have hzero := schedRun_no_rebalance d ts
        { st with last_rebalance := t.today } hrest (by simp [htd])
      simp [hzero]
    · simpa using ih st hrest
    · simpa using ih _ hrest
    · simpa using ih st hrest
    · simpa using ih st hrest

theorem schedRun_no_refresh (d : ℤ) :
    ∀ (ticks : List SchedTick) (st : SchedState),
      (∀ t ∈ ticks, t.today = d) →
      st.symbols ≠ [] → d ≤ st.last_symbol_refresh →
      (schedRun st ticks).2.count SchedEvent.refreshed = 0 := by
  intro ticks
  induction ticks with
  | nil => intro st _ _ _; simp [schedRun]
  | cons t ts ih =>
    intro st hd hsym hle
    have htd : t.today = d := hd t (by simp)
    have hrest : ∀ u ∈ ts, u.today = d := fun u hu => hd u (by simp [hu])
    simp only [schedRun, List.count_append]
    rw [schedStep]
    split_ifs with h1 h2 h3 h4 h5
    · simpa using ih st hrest hsym hle
    · simp only [List.count_cons, List.count_nil]
      rw [ih { st with last_rebalance := t.today } hrest hsym hle]
      decide
    · simpa using ih st hrest hsym hle
    · exfalso
      simp only [Bool.or_eq_true, decide_eq_true_eq, List.isEmpty_iff] at h5
      rw [htd] at h5
      rcases h5 with h5 | h5
      · exact hsym h5
      · omega
    · simpa using ih st hrest hsym hle
    · simpa using ih st hrest hsym hle

theorem schedRun_refresh_le_one (d : ℤ) :
    ∀ (ticks : List SchedTick) (st : SchedState),
      (∀ t ∈ ticks, t.today = d) → (∀ t ∈ ticks, t.fetched ≠ []) →
      (schedRun st ticks).2.count SchedEvent.refreshed ≤ 1 := by
  intro ticks
  induction ticks with
  | nil => intro st _ _; simp [schedRun]
  | cons t ts ih =>
    intro st hd hf
    have htd : t.today = d := hd t (by simp)
    have hrest : ∀ u ∈ ts, u.today = d := fun u hu => hd u (by simp [hu])
    have hfrest : ∀ u ∈ ts, u.fetched ≠ [] := fun u hu => hf u (by simp [hu])
    simp only [schedRun, List.count_append]
    rw [schedStep]
    split_ifs with h1 h2 h3 h4 h5
    · simpa using ih st hrest hfrest
    · simpa using ih _ hrest hfrest
    · simpa using ih st hrest hfrest
    · have hzero := schedRun_no_refresh d ts
        { st with symbols := t.fetched, last_symbol_refresh := t.today }
        hrest (hf t (by simp)) (by simp [htd])
      simp [hzero]
    · simpa using ih st hrest hfrest
    · simpa using ih st hrest hfrest

/-- C3 amended: over the ticks of one calendar day the rebalance fires at most
once, guarded by last_rebalance < today and setting last_rebalance to today
when it fires; last_rebalance never decreases, per step or across any run; the
universe refresh also fires at most once per day PROVIDED the symbol fetches of
that day return non empty lists: with an empty cached symbol list the guard
not symbols admits another refresh on the same day (see the counterexample). -/
theorem sched_once_per_day (st : SchedState) (d : ℤ) (ticks : List SchedTick)
    (hd : ∀ t ∈ ticks, t.today = d) :
    ((schedRun st ticks).2.count SchedEvent.rebalanced ≤ 1)
    ∧ ((∀ t ∈ ticks, t.fetched ≠ []) →
        (schedRun st ticks).2.count SchedEvent.refreshed ≤ 1)
    ∧ (∀ (s : SchedState) (t : SchedTick),
        s.last_rebalance ≤ (schedStep s t).1.last_rebalance)
    ∧ (∀ (s : SchedState) (ts : List SchedTick),
        s.last_rebalance ≤ (schedRun s ts).1.last_rebalance)
    ∧ (∀ (s : SchedState) (t : SchedTick),
        SchedEvent.rebalanced ∈ (schedStep s t).2
          ↔ (t.is_session = true ∧ t.market_open = true ∧ t.noon_hour = true
              ∧ s.last_rebalance < t.today))
    ∧ (∀ (s : SchedState) (t : SchedTick),
        SchedEvent.rebalanced ∈ (schedStep s t).2
          → (schedStep s t).1.last_rebalance = t.today) := by
  refine ⟨schedRun_rebalance_le_one d ticks st hd,
    fun hf => schedRun_refresh_le_one d ticks st hd hf,
    schedStep_last_rebalance_mono,
    fun s ts => schedRun_last_rebalance_mono ts s, ?_, ?_⟩
  · intro s t
    rw [schedStep]
    split_ifs with h1 h2 h3 h4 h5 <;>
      simp_all [Bool.and_eq_true, decide_eq_true_eq]
  · intro s t
    rw [schedStep]
    split_ifs with h1 h2 h3 h4 h5 <;> simp_all

/-- Closed instance of C3 amended: on the two tick day 5 run the rebalance
fires at most once. -/
theorem sched_once_per_day_witness :
    (schedRun (schedInit [] 4) [c3Tick, c3Tick]).2.count SchedEvent.rebalanced ≤ 1 :=
  (sched_once_per_day (schedInit [] 4) 5 [c3Tick, c3Tick] (by decide)).1

/-- C3 counterexample: starting from the reachable state where the initial
symbol fetch returned the empty list, two pre open ticks on the same session
day 5 each fire a universe refresh, because the guard not symbols passes again
after the refetch returns the empty list again: the universe refresh can fire
twice on one calendar day. -/
theorem sched_refresh_twice_counterexample :
    (∀ t ∈ [c3Tick, c3Tick], t.today = 5)
    ∧ (schedRun (schedInit [] 4) [c3Tick, c3Tick]).2
        = [SchedEvent.refreshed, SchedEvent.refreshed] := by
  constructor
  · decide
  · decide

theorem sqSum_nonneg (l : List ℚ) : 0 ≤ sqSum l := by
  apply List.sum_nonneg
  intro x hx
  rcases List.mem_map.mp hx with ⟨y, hy, rfl⟩
  exact mul_self_nonneg y

theorem list_sum_sq_eq_zero {l : List ℚ} (h : (l.map (fun x => x * x)).sum = 0) :
    ∀ x ∈ l, x = 0 := by
  induction l with
  | nil => simp
  | cons a t ih =>
    simp only [List.map_cons, List.sum_cons] at h
    have ha : 0 ≤ a * a := mul_self_nonneg a
    have ht : 0 ≤ (t.map (fun x => x * x)).sum := by
      apply List.sum_nonneg
      intro x hx
      rcases List.mem_map.mp hx with ⟨y, hy, rfl⟩
      exact mul_self_nonneg y
    have ha0 : a * a = 0 := by linarith
    have ht0 : (t.map (fun x => x * x)).sum = 0 := by linarith
    intro x hx
    rcases List.mem_cons.mp hx with rfl | hx
    · exact mul_self_eq_zero.mp ha0
    · exact ih ht0 x hx

theorem sqSum_eq_zero_mean {l : List ℚ} (h : sqSum l = 0) : ∀ y ∈ l, y = mean l := by
  intro y hy
  have hz := list_sum_sq_eq_zero (by simpa [sqSum, centered] using h) (y - mean l)
    (List.mem_map.mpr ⟨y, hy, rfl⟩)
  linarith

theorem sqSum_of_const {l : List ℚ} {c : ℚ} (hne : l ≠ []) (hc : ∀ y ∈ l, y = c) :
    sqSum l = 0 := by
  have hlen : (0:ℚ) < (l.length : ℚ) := by
    have : 0 < l.length := List.length_pos.mpr hne
    exact_mod_cast this
  have hsum : l.sum = (l.length : ℚ) * c := by
    rw [List.sum_eq_card_nsmul l c hc]
    simp [nsmul_eq_mul]
  have hmean : mean l = c := by
    rw [mean, hsum, mul_comm, mul_div_assoc, div_self (ne_of_gt hlen), mul_one]
  apply List.sum_eq_zero
  intro x hx
  rcases List.mem_map.mp hx with ⟨z, hz, rfl⟩
  rcases List.mem_map.mp hz with ⟨y, hy, rfl⟩
  rw [hmean, hc y hy]
  ring

theorem sqSum_idxList_pos {n : ℕ} (hn : 2 ≤ n) : 0 < sqSum (idxList n) := by
  rcases eq_or_lt_of_le (sqSum_nonneg (idxList n)) with he | hl
  · exfalso
    have h1 : (1 : ℚ) ∈ idxList n := by
      have hm : (0:ℕ) ∈ List.range n := List.mem_range.mpr (by omega)
      rw [idxList]
      refine List.mem_map.mpr ⟨(0:ℕ), hm, ?_⟩
      norm_num
    have h2 : (2 : ℚ) ∈ idxList n := by
      have hm : (1:ℕ) ∈ List.range n := List.mem_range.mpr (by omega)
      rw [idxList]
      refine List.mem_map.mpr ⟨(1:ℕ), hm, ?_⟩
      norm_num
    have e1 := sqSum_eq_zero_mean he.symm 1 h1
    have e2 := sqSum_eq_zero_mean he.symm 2 h2
    rw [← e1] at e2
    norm_num at e2
  · exact hl

theorem qualityOK_iff_sqrt (xs ys : List ℚ) (hx : 0 < sqSum xs) (hy : 0 < sqSum ys) :
    qualityOK xs ys = true
      ↔ ((quality_threshold : ℚ) : ℝ)
          ≤ (crossSum xs ys : ℝ) / Real.sqrt ((sqSum xs : ℝ) * (sqSum ys : ℝ)) := by
  have hD : (0:ℝ) < (sqSum xs : ℝ) * (sqSum ys : ℝ) := by
    have := mul_pos hx hy
    exact_mod_cast this
  have hs : 0 < Real.sqrt ((sqSum xs : ℝ) * (sqSum ys : ℝ)) := Real.sqrt_pos.mpr hD
  have hsq : Real.sqrt ((sqSum xs : ℝ) * (sqSum ys : ℝ)) ^ 2
      = (sqSum xs : ℝ) * (sqSum ys : ℝ) := Real.sq_sqrt hD.le
  have hth : (0:ℝ) < ((quality_threshold : ℚ) : ℝ) := by
    rw [quality_threshold]
    norm_num
  rw [qualityOK, Bool.and_eq_true, decide_eq_true_eq, decide_eq_true_eq]
  rw [le_div_iff₀ hs]
  constructor
  · rintro ⟨hA0, hAsq⟩
    have hA0R : (0:ℝ) ≤ (crossSum xs ys : ℝ) := by exact_mod_cast hA0
    have hAsqR : ((quality_threshold : ℚ) : ℝ) ^ 2 * ((sqSum xs : ℝ) * (sqSum ys : ℝ))
        ≤ (crossSum xs ys : ℝ) ^ 2 := by exact_mod_cast hAsq
    by_contra hlt
    push_neg at hlt
    have hsqlt : (crossSum xs ys : ℝ) ^ 2
        < (((quality_threshold : ℚ) : ℝ)
            * Real.sqrt ((sqSum xs : ℝ) * (sqSum ys : ℝ))) ^ 2 :=
      pow_lt_pow_left₀ hlt hA0R (by norm_num)
    rw [mul_pow, hsq] at hsqlt
    linarith
  · intro hcs
    have hA0R : (0:ℝ) ≤ (crossSum xs ys : ℝ) :=
      le_trans (le_of_lt (mul_pos hth hs)) hcs
    have hsqle : (((quality_threshold : ℚ) : ℝ)
          * Real.sqrt ((sqSum xs : ℝ) * (sqSum ys : ℝ))) ^ 2
        ≤ (crossSum xs ys : ℝ) ^ 2 :=
      pow_le_pow_left₀ (le_of_lt (mul_pos hth hs)) hcs 2
    rw [mul_pow, hsq] at hsqle
    constructor
    · exact_mod_cast hA0R
    · exact_mod_cast hsqle

/-- C6: a price series whose truncated close list has fewer than two usable
points, or constant close prices, is discarded by the momentum scorer: its
scoring returns none (the undefined correlation is a skip, not an exception
escaping the batch: the model is a total function), removing such an entry
from a batch leaves the scores of the remaining symbols unchanged, and such a
series never yields a retained candidate. -/
theorem momentum_scorer_degenerate (sym : String) (closes : List ℚ)
    (h : (lastN look_back_period closes).length < 2
        ∨ ∃ c, ∀ y ∈ lastN look_back_period closes, y = c) :
    scoreSymbol (sym, PriceData.bars closes) = none
    ∧ (∀ pre post : List (String × PriceData),
        momentum_quality (pre ++ (sym, PriceData.bars closes) :: post)
          = momentum_quality (pre ++ post))
    ∧ sym ∉ top_ranked_momentum [(sym, PriceData.bars closes)] := by
  have hnone : scoreSymbol (sym, PriceData.bars closes) = none := by
    by_cases hlen : (lastN look_back_period closes).length < 2
    · simp only [scoreSymbol]
      rw [if_pos hlen]
    · rcases h with h | ⟨c, hc⟩
      · exact absurd h hlen
      · have hne : lastN look_back_period closes ≠ [] := by
          intro he
          rw [he] at hlen
          simp at hlen
        have hzero : sqSum (lastN look_back_period closes) = 0 :=
          sqSum_of_const hne hc
        simp only [scoreSymbol]
        rw [if_neg hlen, if_pos (by rw [hzero]; ring)]
  refine ⟨hnone, ?_, ?_⟩
  · intro pre post
    simp [momentum_quality, hnone]
  · simp [top_ranked_momentum, momentum_quality, hnone]

/-- Closed instance of C6: the constant price series 1, 1, 1 is discarded. -/
theorem momentum_scorer_degenerate_witness :
    scoreSymbol ("A", PriceData.bars [1, 1, 1]) = none :=
  (momentum_scorer_degenerate "A" [1, 1, 1] (Or.inr ⟨1, by decide⟩)).1

/-- C7: for a fetched series truncated to the last look_back_period bars, the
symbol is retained iff the Pearson correlation between the index list 1..n and
the close prices, sxy / sqrt(sxx * syy), is at least the quality threshold
0.93, stated over the reals; the score of a retained symbol is the ordinary
least squares slope sxy / sxx (not slope times r squared); and the target set
is the top portfolio_size candidates by descending score: the stable sort of
momentum_quality is a permutation of it, pairwise descending on the score,
and top_ranked_momentum is its first portfolio_size names. -/
theorem momentum_scorer_ranking_spec (sym : String) (closes : List ℚ)
    (prices : List (String × PriceData))
    (hn : 2 ≤ (lastN look_back_period closes).length)
    (hv : sqSum (lastN look_back_period closes) ≠ 0) :
    (scoreSymbol (sym, PriceData.bars closes) ≠ none
      ↔ ((quality_threshold : ℚ) : ℝ)
          ≤ (crossSum (idxList (lastN look_back_period closes).length)
                (lastN look_back_period closes) : ℝ)
            / Real.sqrt
                ((sqSum (idxList (lastN look_back_period closes).length) : ℝ)
                  * (sqSum (lastN look_back_period closes) : ℝ)))
    ∧ (∀ s : ℚ, scoreSymbol (sym, PriceData.bars closes) = some (sym, s)
        → s = crossSum (idxList (lastN look_back_period closes).length)
              (lastN look_back_period closes)
            / sqSum (idxList (lastN look_back_period closes).length))
    ∧ ((momentum_quality prices).mergeSort scoreDesc).Pairwise
        (fun a b => b.2 ≤ a.2)
    ∧ ((momentum_quality prices).mergeSort scoreDesc).Perm (momentum_quality prices)
    ∧ top_ranked_momentum prices
        = (((momentum_quality prices).mergeSort scoreDesc).take portfolio_size).map
            Prod.fst := by
  have hx : 0 < sqSum (idxList (lastN look_back_period closes).length) :=
    sqSum_idxList_pos hn
  have hy : 0 < sqSum (lastN look_back_period closes) :=
    lt_of_le_of_ne (sqSum_nonneg _) (Ne.symm hv)
  have hprod : ¬ (sqSum (idxList (lastN look_back_period closes).length)
      * sqSum (lastN look_back_period closes) = 0) := ne_of_gt (mul_pos hx hy)
  have hlt : ¬ ((lastN look_back_period closes).length < 2) := by omega
  refine ⟨?_, ?_, ?_, List.mergeSort_perm _ _, rfl⟩
  · rw [← qualityOK_iff_sqrt _ _ hx hy]
    simp only [scoreSymbol]
    rw [if_neg hlt, if_neg hprod]
    by_cases hq : qualityOK (idxList (lastN look_back_period closes).length)
        (lastN look_back_period closes)
    · rw [if_neg (by simp [hq])]
      simp [hq]
    · rw [if_pos (by simp [hq])]
      simp [hq]
  · intro s hs
    simp only [scoreSymbol] at hs
    rw [if_neg hlt, if_neg hprod] at hs
    by_cases hq : qualityOK (idxList (lastN look_back_period closes).length)
        (lastN look_back_period closes)
    · rw [if_neg (by simp [hq])] at hs
      have h2 := Option.some.inj hs
      have h3 := congrArg Prod.snd h2
      exact h3.symm
    · rw [if_pos (by simp [hq])] at hs
      cases hs
  · have htrans : ∀ a b c : String × ℚ, scoreDesc a b = true → scoreDesc b c = true
        → scoreDesc a c = true := by
      intro a b c h1 h2
      simp only [scoreDesc, decide_eq_true_eq] at h1 h2 ⊢
      exact le_trans h2 h1
    have htotal : ∀ a b : String × ℚ, (scoreDesc a b || scoreDesc b a) = true := by
      intro a b
      simp only [scoreDesc, Bool.or_eq_true, decide_eq_true_eq]
      exact le_total b.2 a.2
    have hp := List.sorted_mergeSort htrans htotal (momentum_quality prices)
    exact hp.imp (fun h => by simpa [scoreDesc] using h)

/-- Closed instance of C7 at the increasing series 1, 2, 3. -/
theorem momentum_scorer_ranking_spec_witness :
    ((momentum_quality [("A", PriceData.bars [1, 2, 3])]).mergeSort scoreDesc).Perm
      (momentum_quality [("A", PriceData.bars [1, 2, 3])]) :=
  (momentum_scorer_ranking_spec "A" [1, 2, 3] [("A", PriceData.bars [1, 2, 3])]
    (by norm_num [lastN, look_back_period])
    (by norm_num [sqSum, centered, mean, lastN, look_back_period])).2.2.2.1

/-- Closed instance of C4: the held = (A, B), target = (B, C) example. -/
theorem portfolio_differencer_spec_witness :
    names_to_buy ["B", "C"] ["A", "B"] = {"C"} :=
  (portfolio_differencer_spec ["B", "C"] ["A", "B"]).2.2.2.1

/-- Closed instance of C10: entering aapl while AAPL is held places nothing. -/
theorem position_eq_case_insensitive_witness :
    enter "aapl" 2 none false c10Env = noOrders :=
  position_eq_case_insensitive.2.2.2.2 "aapl" 2 none false c10Env
    ⟨{ name := "AAPL", size := 10, cost_basis := 100, time_opened := 0 },
      by decide, by decide⟩
